import Mathlib

/-!
Shallow embedding of `src/solver.py`: a 16x16 Sudoku (Hexadoku) solver
using backtracking search with the Minimum-Remaining-Values heuristic and
forward checking.

The Python board (`List[List[str]]`, always of shape 16x16) is embedded as
a total function `Fin 16 → Fin 16 → String`; the in-place mutation
`board[row][col] = value` becomes the functional update `setCell`, and the
recursive `solve_sudoku` becomes a state-passing function returning the
boolean result together with the final board.  The Python `set` returned by
`get_valid_candidates` is represented by the ascending list of its elements
(its callers consume it only through emptiness, `len`, and `sorted`).
`solve_sudoku`'s recursion is embedded with an explicit fuel parameter;
`numEmpty b + 1` units of fuel are proved to always suffice, so the fuel
never runs out and `solve_sudoku` computes the exact result of the source
recursion.  The global `recursive_calls` counter is diagnostic-only state
with no influence on solving and is not modelled.
-/

set_option maxRecDepth 100000

namespace SudokuMRV

/-- A 16x16 board: each cell holds a symbol or the empty-cell marker. -/
abbrev Board : Type := Fin 16 → Fin 16 → String

/-- `EMPTY_CELL` of the source. -/
def EMPTY_CELL : String := "_"

/-- `SYMBOLS` of the source.  Python keeps them as a `set`; here they are
listed in ascending order of Python's string ordering (digits before
letters), the order produced by `sorted` in `solve_sudoku`. -/
def SYMBOLS : List String :=
  ["0", "1", "2", "3", "4", "5", "6", "7",
   "8", "9", "A", "B", "C", "D", "E", "F"]

/-- Read one cell (`board[row][col]`). -/
def getCell (b : Board) (r c : Fin 16) : String := b r c

/-- Write one cell (`board[row][col] = v`), as a functional update. -/
def setCell (b : Board) (r c : Fin 16) (v : String) : Board :=
  fun r' c' => if r' = r ∧ c' = c then v else b r' c'

/-- The index inside row/column `i`'s subgrid band:
`(i // SUBGRID_SIZE) * SUBGRID_SIZE + d` for `d < 4`, always in range. -/
def subgridPos (i : Fin 16) (d : Fin 4) : Fin 16 :=
  ⟨i.val / 4 * 4 + d.val, by have h1 := i.isLt; have h2 := d.isLt; omega⟩

/-- `used_symbols` built by `get_valid_candidates`: every value in the
cell's row, its column, and its 4x4 subgrid (the subgrid is scanned
row-major from `(row // 4 * 4, col // 4 * 4)`).  Duplicates and the empty
marker may occur; only membership is ever used. -/
def usedSymbols (b : Board) (row col : Fin 16) : List String :=
  ((List.finRange 16).map fun c => b row c) ++
  ((List.finRange 16).map fun r => b r col) ++
  ((List.finRange 4).flatMap fun dr =>
    (List.finRange 4).map fun dc => b (subgridPos row dr) (subgridPos col dc))

/-- `get_valid_candidates`: `SYMBOLS - used_symbols`, the symbols not yet
used in the cell's row, column and subgrid, represented as the ascending
list of the resulting set's elements. -/
def get_valid_candidates (b : Board) (row col : Fin 16) : List String :=
  SYMBOLS.filter fun s => !decide (s ∈ usedSymbols b row col)

/-- All 256 positions in row-major order (row outer, column inner): the
iteration order of the two nested loops of `find_mrv_cell`. -/
def allPositions : List (Fin 16 × Fin 16) :=
  (List.finRange 16).flatMap fun r => (List.finRange 16).map fun c => (r, c)

/-- `n < smallest_domain_size` where `none` stands for `float("inf")`. -/
def ltInf (n : Nat) : Option Nat → Bool
  | none => true
  | some m => decide (n < m)

/-- The scanning loop of `find_mrv_cell`, with the accumulated `best_cell`
and `smallest_domain_size`.  A cell whose candidate set is empty aborts the
whole scan with `none` (the forward-checking branch); a cell whose
candidate set has exactly one element is returned at once; otherwise the
strictly-smaller comparison keeps the first cell of each size.  (The Python
local `candidates` is written out as `get_valid_candidates b row col` at
each use site.) -/
def mrv_loop (b : Board) :
    List (Fin 16 × Fin 16) → Option (Fin 16 × Fin 16 × List String) →
    Option Nat → Option (Fin 16 × Fin 16 × List String)
  | [], best, _ => best
  | (row, col) :: rest, best, smallest =>
    if b row col = EMPTY_CELL then
      if get_valid_candidates b row col = [] then none
      else if ltInf (get_valid_candidates b row col).length smallest then
        if (get_valid_candidates b row col).length = 1 then
          some (row, col, get_valid_candidates b row col)
        else
          mrv_loop b rest (some (row, col, get_valid_candidates b row col))
            (some (get_valid_candidates b row col).length)
      else mrv_loop b rest best smallest
    else mrv_loop b rest best smallest

/-- `find_mrv_cell`: scan all cells in row-major order starting from an
empty accumulator (`best_cell = None`, `smallest_domain_size = inf`). -/
def find_mrv_cell (b : Board) : Option (Fin 16 × Fin 16 × List String) :=
  mrv_loop b allPositions none none

/-- The candidate loop of `solve_sudoku`, for the selected cell `(row,
col)`.  The candidates arrive already in ascending order (`sorted`).  Each
is assigned to the cell and the solver (`solver`, instantiated with the
recursive call at the next fuel level) is invoked; success propagates at
once with the solved board, failure resets the cell to `EMPTY_CELL` and
tries the next candidate; an exhausted list reports failure with the board
as it stands.  `none` means the fuel ran out inside the recursion. -/
def try_symbols (solver : Board → Option (Bool × Board)) (row col : Fin 16) :
    List String → Board → Option (Bool × Board)
  | [], b => some (false, b)
  | sym :: rest, b =>
    match solver (setCell b row col sym) with
    | none => none
    | some (true, b2) => some (true, b2)
    | some (false, b2) => try_symbols solver row col rest (setCell b2 row col EMPTY_CELL)

/-- `solve_sudoku` with an explicit bound on the recursion depth.  A fuel
of `0` returns `none`; otherwise the MRV scan either reports `None`
(mapped to `True` by the source) or selects a cell whose candidates are
then tried in order. -/
def solve_fuel : Nat → Board → Option (Bool × Board)
  | 0, _ => none
  | n + 1, b =>
    match find_mrv_cell b with
    | none => some (true, b)
    | some (row, col, candidates) => try_symbols (solve_fuel n) row col candidates b

/-- The number of empty cells of a board. -/
def numEmpty (b : Board) : Nat :=
  allPositions.countP fun p => decide (b p.1 p.2 = EMPTY_CELL)

/-- `solve_sudoku`: the fuel `numEmpty b + 1` always suffices (each
recursive call fills one more cell), so the default of `getD` is never
taken and this is the exact result of the source recursion. -/
def solve_sudoku (b : Board) : Bool × Board :=
  (solve_fuel (numEmpty b + 1) b).getD (false, b)

/-! ### Concrete boards used in counterexamples and witnesses -/

/-- A complete valid reference grid: cell `(r, c)` holds
`SYMBOLS[(4 * (r % 4) + r / 4 + c + 10) % 16]`.  Every row, column and 4x4
subgrid is a permutation of the 16 symbols, and the top-left cell holds
`"A"`. -/
def Lgrid : Board := fun r c =>
  SYMBOLS.getD ((4 * (r.val % 4) + r.val / 4 + c.val + 10) % 16) EMPTY_CELL

/-- Blank the listed positions of a board. -/
def blankAt (b : Board) (bl : List (Nat × Nat)) : Board :=
  fun r c => if (r.val, c.val) ∈ bl then EMPTY_CELL else b r c

/-- Row 0 of `deadBoard`: the cell `(0,0)` is empty and the 15 cells to its
right hold the 15 symbols other than `"A"`. -/
def deadRow0 : List String :=
  ["_", "0", "1", "2", "3", "4", "5", "6", "7", "8", "9", "B", "C", "D", "E", "F"]

/-- A consistent board with a dead-end cell: `(0,0)` is empty, its row
holds every symbol except `"A"`, and `"A"` sits at `(4,0)` in its column,
so the candidate set of `(0,0)` is empty.  All other cells are empty. -/
def deadBoard : Board := fun r c =>
  if r.val = 0 then deadRow0.getD c.val EMPTY_CELL
  else if r.val = 4 ∧ c.val = 0 then "A"
  else EMPTY_CELL

/-- The positions blanked from `Lgrid` to build `bugBoard`. -/
def bugBlanks : List (Nat × Nat) :=
  [(12, 1), (12, 5), (12, 13), (14, 1), (14, 5), (14, 13), (15, 1), (15, 13)]

/-- A solvable board (its filled cells agree with the complete valid grid
`Lgrid`) on which the solver guesses `"A"` at `(12,1)` instead of `"E"`,
runs into a dead end two invocations later, and reports success with six
cells still empty. -/
def bugBoard : Board := blankAt Lgrid bugBlanks

/-- `Lgrid` with the single cell `(3,5)` blanked. -/
def oneBlank35 : Board := blankAt Lgrid [(3, 5)]

/-- `Lgrid` with the single cell `(8,8)` blanked. -/
def oneBlank88 : Board := blankAt Lgrid [(8, 8)]

/-- `Lgrid` with the single cell `(2,3)` blanked. -/
def oneBlank23 : Board := blankAt Lgrid [(2, 3)]

/-! ### Basic facts about positions, `setCell`, and `numEmpty` -/

lemma mem_allPositions (p : Fin 16 × Fin 16) : p ∈ allPositions := by
  rcases p with ⟨r, c⟩
  exact List.mem_flatMap.2 ⟨r, List.mem_finRange r, List.mem_map.2 ⟨c, List.mem_finRange c, rfl⟩⟩

lemma allPositions_nodup : allPositions.Nodup := by decide

lemma setCell_apply_same (b : Board) (r c : Fin 16) (v : String) :
    setCell b r c v r c = v := by
  unfold setCell
  rw [if_pos ⟨rfl, rfl⟩]

lemma setCell_apply_ne (b : Board) (r c : Fin 16) (v : String) {r' c' : Fin 16}
    (h : ¬(r' = r ∧ c' = c)) : setCell b r c v r' c' = b r' c' := by
  unfold setCell
  rw [if_neg h]

lemma symbols_ne_empty : ∀ s ∈ SYMBOLS, s ≠ EMPTY_CELL := by decide

lemma mem_symbols_of_mem_candidates {b : Board} {row col : Fin 16} {s : String}
    (h : s ∈ get_valid_candidates b row col) : s ∈ SYMBOLS :=
  (List.mem_filter.1 h).1

lemma countP_emptyPred_setCell (b : Board) (r c : Fin 16) (v : String)
    (hb : b r c = EMPTY_CELL) (hv : v ≠ EMPTY_CELL)
    (l : List (Fin 16 × Fin 16)) (hnd : l.Nodup) (hmem : (r, c) ∈ l) :
    l.countP (fun p => decide (setCell b r c v p.1 p.2 = EMPTY_CELL)) + 1 =
    l.countP (fun p => decide (b p.1 p.2 = EMPTY_CELL)) := by
  induction l with
  | nil => simp at hmem
  | cons q t ih =>
    rw [List.countP_cons, List.countP_cons]
    rcases List.nodup_cons.1 hnd with ⟨hq, hnd'⟩
    rcases List.mem_cons.1 hmem with hq1 | hq2
    · subst hq1
      have ht : t.countP (fun p => decide (setCell b r c v p.1 p.2 = EMPTY_CELL)) =
          t.countP (fun p => decide (b p.1 p.2 = EMPTY_CELL)) := by
        apply List.countP_congr
        intro x hx
        have hxne : ¬(x.1 = r ∧ x.2 = c) := by
          rintro ⟨h1, h2⟩
          exact hq (by rwa [show x = (r, c) from Prod.ext h1 h2] at hx)
        rw [setCell_apply_ne b r c v hxne]
      have h1 : (decide (setCell b r c v (r, c).1 (r, c).2 = EMPTY_CELL)) = false := by
        simp only [setCell_apply_same]
        exact decide_eq_false hv
      have h2 : decide (b (r, c).1 (r, c).2 = EMPTY_CELL) = true := decide_eq_true hb
      rw [ht, h1, h2]
      simp
    · have hqne : ¬(q.1 = r ∧ q.2 = c) := by
        rintro ⟨h1, h2⟩
        exact hq (by rw [show q = (r, c) from Prod.ext h1 h2]; exact hq2)
      have hqe : decide (setCell b r c v q.1 q.2 = EMPTY_CELL) =
          decide (b q.1 q.2 = EMPTY_CELL) := by
        rw [setCell_apply_ne b r c v hqne]
      rw [hqe]
      have := ih hnd' hq2
      cases decide (b q.1 q.2 = EMPTY_CELL) <;> simp <;> omega

lemma numEmpty_setCell (b : Board) (r c : Fin 16) (v : String)
    (hb : b r c = EMPTY_CELL) (hv : v ≠ EMPTY_CELL) :
    numEmpty (setCell b r c v) + 1 = numEmpty b :=
  countP_emptyPred_setCell b r c v hb hv allPositions allPositions_nodup
    (mem_allPositions _)

lemma numEmpty_pos (b : Board) (r c : Fin 16) (h : b r c = EMPTY_CELL) :
    0 < numEmpty b :=
  List.countP_pos_iff.2 ⟨(r, c), mem_allPositions _, by simpa using h⟩

/-! ### What `find_mrv_cell` returns -/

/-- Accumulator invariant of the MRV scan: any stored `best_cell` is an
empty cell together with its (nonempty) candidate set. -/
def BestValid (b : Board) (best : Option (Fin 16 × Fin 16 × List String)) : Prop :=
  ∀ r c cands, best = some (r, c, cands) →
    b r c = EMPTY_CELL ∧ cands = get_valid_candidates b r c ∧ cands ≠ []

lemma mrv_loop_valid (b : Board) (l : List (Fin 16 × Fin 16)) :
    ∀ best s, BestValid b best → BestValid b (mrv_loop b l best s) := by
  induction l with
  | nil => intro best s hbest; simpa [mrv_loop] using hbest
  | cons q rest ih =>
    intro best s hbest
    rcases q with ⟨row, col⟩
    rw [mrv_loop]
    by_cases hemp : b row col = EMPTY_CELL
    · rw [if_pos hemp]
      by_cases hnil : get_valid_candidates b row col = []
      · simp only [hnil, if_pos rfl]
        intro r c cands h
        exact absurd h (by simp)
      · simp only [if_neg hnil]
        by_cases hlt : ltInf (get_valid_candidates b row col).length s = true
        · rw [if_pos hlt]
          by_cases hone : (get_valid_candidates b row col).length = 1
          · rw [if_pos hone]
            intro r c cands h
            injection h with h'
            simp only [Prod.mk.injEq] at h'
            obtain ⟨h1, h2, h3⟩ := h'
            subst h1; subst h2; subst h3
            exact ⟨hemp, rfl, hnil⟩
          · rw [if_neg hone]
            apply ih
            intro r c cands h
            injection h with h'
            simp only [Prod.mk.injEq] at h'
            obtain ⟨h1, h2, h3⟩ := h'
            subst h1; subst h2; subst h3
            exact ⟨hemp, rfl, hnil⟩
        · rw [if_neg hlt]
          exact ih best s hbest
    · rw [if_neg hemp]
      exact ih best s hbest

/-- Whatever `find_mrv_cell` returns (when not `None`) is an empty cell of
the board together with its nonempty candidate set. -/
lemma find_mrv_cell_valid (b : Board) (r c : Fin 16) (cands : List String)
    (h : find_mrv_cell b = some (r, c, cands)) :
    b r c = EMPTY_CELL ∧ cands = get_valid_candidates b r c ∧ cands ≠ [] := by
  have := mrv_loop_valid b allPositions none none (by intro r c cands h; simp at h)
  exact this r c cands h

/-! ### Unfolding equations for the candidate loop -/

lemma try_symbols_nil (solver : Board → Option (Bool × Board)) (row col : Fin 16)
    (b : Board) : try_symbols solver row col [] b = some (false, b) := rfl

lemma try_symbols_cons (solver : Board → Option (Bool × Board)) (row col : Fin 16)
    (sym : String) (rest : List String) (b : Board) :
    try_symbols solver row col (sym :: rest) b =
      match solver (setCell b row col sym) with
      | none => none
      | some (true, b2) => some (true, b2)
      | some (false, b2) =>
        try_symbols solver row col rest (setCell b2 row col EMPTY_CELL) := rfl

lemma try_symbols_cons_of_true {solver : Board → Option (Bool × Board)}
    {row col : Fin 16} {sym : String} {b b2 : Board} (rest : List String)
    (h : solver (setCell b row col sym) = some (true, b2)) :
    try_symbols solver row col (sym :: rest) b = some (true, b2) := by
  rw [try_symbols_cons, h]

lemma try_symbols_cons_of_false {solver : Board → Option (Bool × Board)}
    {row col : Fin 16} {sym : String} {b b2 : Board} (rest : List String)
    (h : solver (setCell b row col sym) = some (false, b2)) :
    try_symbols solver row col (sym :: rest) b =
      try_symbols solver row col rest (setCell b2 row col EMPTY_CELL) := by
  rw [try_symbols_cons, h]

/-! ### The solver never runs out of fuel and never reports failure -/

/-- With fuel `numEmpty b + 1` the embedded recursion always completes, and
(because the forward-checking branch of `find_mrv_cell` returns the same
`None` that signals a completed board) it always reports `true`. -/
lemma solve_fuel_some_true (n : Nat) :
    ∀ b : Board, numEmpty b ≤ n → ∃ b2, solve_fuel (n + 1) b = some (true, b2) := by
  induction n with
  | zero =>
    intro b hn
    rcases hm : find_mrv_cell b with _ | ⟨row, col, cands⟩
    · exact ⟨b, by rw [solve_fuel, hm]⟩
    · obtain ⟨hemp, _, _⟩ := find_mrv_cell_valid b row col cands hm
      exact absurd hn (by have := numEmpty_pos b row col hemp; omega)
  | succ m ih =>
    intro b hn
    rcases hm : find_mrv_cell b with _ | ⟨row, col, cands⟩
    · exact ⟨b, by rw [solve_fuel, hm]⟩
    · obtain ⟨hemp, hcand, hne⟩ := find_mrv_cell_valid b row col cands hm
      obtain ⟨sym, rest, hcons⟩ := List.exists_cons_of_ne_nil hne
      have hsym : sym ∈ SYMBOLS :=
        mem_symbols_of_mem_candidates
          (show sym ∈ get_valid_candidates b row col by
            rw [← hcand, hcons]; exact List.mem_cons_self _ _)
      have hsymne : sym ≠ EMPTY_CELL := symbols_ne_empty sym hsym
      have hdec := numEmpty_setCell b row col sym hemp hsymne
      obtain ⟨b2, hb2⟩ := ih (setCell b row col sym) (by omega)
      refine ⟨b2, ?_⟩
      rw [solve_fuel, hm, hcons]
      exact try_symbols_cons_of_true rest hb2

/-- The top-level solver: its fuel suffices and the result is `true` on
every board. -/
lemma solve_sudoku_eq_true (b : Board) :
    ∃ b2, solve_fuel (numEmpty b + 1) b = some (true, b2) ∧
      solve_sudoku b = (true, b2) :=
  let ⟨b2, h⟩ := solve_fuel_some_true (numEmpty b) b le_rfl
  ⟨b2, h, by rw [solve_sudoku, h]; rfl⟩

/-! ### Filled cells are never modified -/

lemma try_symbols_frame (m : Nat)
    (ihm : ∀ (b : Board) (res : Bool × Board), solve_fuel m b = some res →
      ∀ r c : Fin 16, b r c ≠ EMPTY_CELL → res.2 r c = b r c)
    (row col : Fin 16) (syms : List String) :
    ∀ (b : Board) (res : Bool × Board),
      try_symbols (solve_fuel m) row col syms b = some res →
      ∀ r c : Fin 16, ¬(r = row ∧ c = col) → b r c ≠ EMPTY_CELL →
        res.2 r c = b r c := by
  induction syms with
  | nil =>
    intro b res h r c hpos hne
    rw [try_symbols_nil] at h
    injection h with h'
    rw [← h']
  | cons sym rest ih =>
    intro b res h r c hpos hne
    have hset : setCell b row col sym r c = b r c := setCell_apply_ne b row col sym hpos
    rcases hs : solve_fuel m (setCell b row col sym) with _ | ⟨ok, b2⟩
    · have hnone : try_symbols (solve_fuel m) row col (sym :: rest) b = none := by
        rw [try_symbols_cons, hs]
      rw [hnone] at h
      exact absurd h (by simp)
    · cases ok
      · rw [try_symbols_cons_of_false rest hs] at h
        have hb2 : b2 r c = b r c := by
          have := ihm (setCell b row col sym) (false, b2) hs r c (by rw [hset]; exact hne)
          rw [← hset]
          exact this
        have hb3 : setCell b2 row col EMPTY_CELL r c = b r c := by
          rw [setCell_apply_ne _ _ _ _ hpos, hb2]
        have := ih (setCell b2 row col EMPTY_CELL) res h r c hpos (by rw [hb3]; exact hne)
        rw [this, hb3]
      · rw [try_symbols_cons_of_true rest hs] at h
        injection h with h'
        rw [← h']
        have := ihm (setCell b row col sym) (true, b2) hs r c (by rw [hset]; exact hne)
        rw [← hset]
        exact this

/-- Any result of the (fuelled) solver agrees with the input board on every
cell that was not empty: the solver only ever writes to cells selected by
`find_mrv_cell`, which are empty. -/
lemma solve_fuel_frame (n : Nat) :
    ∀ (b : Board) (res : Bool × Board), solve_fuel n b = some res →
      ∀ r c : Fin 16, b r c ≠ EMPTY_CELL → res.2 r c = b r c := by
  induction n with
  | zero =>
    intro b res h
    exact absurd h (by rw [solve_fuel]; simp)
  | succ m ihm =>
    intro b res h r c hne
    rw [solve_fuel] at h
    rcases hm : find_mrv_cell b with _ | ⟨row, col, cands⟩
    · rw [hm] at h
      injection h with h'
      rw [← h']
    · rw [hm] at h
      obtain ⟨hemp, -, -⟩ := find_mrv_cell_valid b row col cands hm
      have hpos : ¬(r = row ∧ c = col) := by
        rintro ⟨rfl, rfl⟩
        exact hne hemp
      exact try_symbols_frame m ihm row col cands b res h r c hpos hne

/-! ### Characterization of `get_valid_candidates` -/

lemma mem_usedSymbols_iff (b : Board) (row col : Fin 16) (s : String) :
    s ∈ usedSymbols b row col ↔
      (∃ c' : Fin 16, b row c' = s) ∨ (∃ r' : Fin 16, b r' col = s) ∨
      (∃ dr dc : Fin 4, b (subgridPos row dr) (subgridPos col dc) = s) := by
  unfold usedSymbols
  simp only [List.mem_append, List.mem_map, List.mem_flatMap, List.mem_finRange,
    true_and]
  tauto

lemma mem_candidates_iff (b : Board) (row col : Fin 16) (s : String) :
    s ∈ get_valid_candidates b row col ↔
      s ∈ SYMBOLS ∧ s ∉ usedSymbols b row col := by
  unfold get_valid_candidates
  rw [List.mem_filter]
  simp

/-! ### Spec-side description of the MRV selection -/

/-- Modelled from the claim's wording: scan the positions from the front
("row-major order" once instantiated with `allPositions`) and keep the
empty cell with the smallest candidate set, an earlier cell winning ties
(strict `<` against every later competitor). -/
def mrv_spec_scan (b : Board) :
    List (Fin 16 × Fin 16) → Option (Fin 16 × Fin 16 × List String)
  | [] => none
  | (r, c) :: rest =>
    if b r c = EMPTY_CELL then
      match mrv_spec_scan b rest with
      | none => some (r, c, get_valid_candidates b r c)
      | some (r', c', d') =>
        if d'.length < (get_valid_candidates b r c).length then some (r', c', d')
        else some (r, c, get_valid_candidates b r c)
    else mrv_spec_scan b rest

/-- The first empty cell in row-major order whose candidate set has the
minimal size, together with that candidate set; `none` iff the board has no
empty cell. -/
def mrv_spec (b : Board) : Option (Fin 16 × Fin 16 × List String) :=
  mrv_spec_scan b allPositions

lemma mrv_spec_scan_valid (b : Board) (l : List (Fin 16 × Fin 16)) :
    ∀ r c d, mrv_spec_scan b l = some (r, c, d) →
      (r, c) ∈ l ∧ b r c = EMPTY_CELL ∧ d = get_valid_candidates b r c := by
  induction l with
  | nil => intro r c d h; simp [mrv_spec_scan] at h
  | cons q rest ih =>
    intro r c d h
    rcases q with ⟨r0, c0⟩
    rw [mrv_spec_scan] at h
    by_cases hemp : b r0 c0 = EMPTY_CELL
    · rw [if_pos hemp] at h
      rcases ht : mrv_spec_scan b rest with _ | ⟨r1, c1, d1⟩
      · rw [ht] at h
        injection h with h'
        simp only [Prod.mk.injEq] at h'
        obtain ⟨rfl, rfl, h3⟩ := h'
        exact ⟨List.mem_cons_self _ _, hemp, h3.symm⟩
      · rw [ht] at h
        have h2 : (if d1.length < (get_valid_candidates b r0 c0).length
            then some (r1, c1, d1)
            else some (r0, c0, get_valid_candidates b r0 c0)) = some (r, c, d) := h
        by_cases hlt : d1.length < (get_valid_candidates b r0 c0).length
        · rw [if_pos hlt] at h2
          obtain ⟨hmem, he, hd⟩ := ih r c d (ht.trans h2)
          exact ⟨List.mem_cons_of_mem _ hmem, he, hd⟩
        · rw [if_neg hlt] at h2
          injection h2 with h'
          simp only [Prod.mk.injEq] at h'
          obtain ⟨rfl, rfl, h3⟩ := h'
          exact ⟨List.mem_cons_self _ _, hemp, h3.symm⟩
    · rw [if_neg hemp] at h
      obtain ⟨hmem, he, hd⟩ := ih r c d h
      exact ⟨List.mem_cons_of_mem _ hmem, he, hd⟩

/-- Combine the best cell of an already-scanned prefix with the best of the
remaining positions; the prefix cell wins ties. -/
def mergeB (best t : Option (Fin 16 × Fin 16 × List String)) :
    Option (Fin 16 × Fin 16 × List String) :=
  match best, t with
  | none, t => t
  | some bc, none => some bc
  | some (p1, p2, d), some (q1, q2, e) =>
    if e.length < d.length then some (q1, q2, e) else some (p1, p2, d)

lemma ltInf_none (n : Nat) : ltInf n none = true := rfl

lemma ltInf_some (n m : Nat) : ltInf n (some m) = decide (n < m) := rfl

/-- As long as no reachable empty cell has an empty candidate set, the MRV
loop computes exactly the first-minimal cell of the remaining scan, merged
with the accumulator. -/
lemma mrv_loop_eq_spec (b : Board) (l : List (Fin 16 × Fin 16)) :
    ∀ (best : Option (Fin 16 × Fin 16 × List String)) (s : Option Nat),
      ((best = none ∧ s = none) ∨
        (∃ p1 p2 d, best = some (p1, p2, d) ∧ s = some d.length ∧ 2 ≤ d.length)) →
      (∀ p ∈ l, b p.1 p.2 = EMPTY_CELL → get_valid_candidates b p.1 p.2 ≠ []) →
      mrv_loop b l best s = mergeB best (mrv_spec_scan b l) := by
  induction l with
  | nil =>
    intro best s _ _
    rw [mrv_loop, mrv_spec_scan]
    cases best <;> rfl
  | cons q rest ih =>
    intro best s hinv hne
    rcases q with ⟨r0, c0⟩
    have hneRest : ∀ p ∈ rest, b p.1 p.2 = EMPTY_CELL →
        get_valid_candidates b p.1 p.2 ≠ [] :=
      fun p hp => hne p (List.mem_cons_of_mem _ hp)
    rw [mrv_loop, mrv_spec_scan]
    by_cases hemp : b r0 c0 = EMPTY_CELL
    · rw [if_pos hemp, if_pos hemp]
      have hcne : get_valid_candidates b r0 c0 ≠ [] :=
        hne (r0, c0) (List.mem_cons_self _ _) hemp
      have hX1 : 1 ≤ (get_valid_candidates b r0 c0).length :=
        List.length_pos.2 hcne
      rw [if_neg hcne]
      rcases hts : mrv_spec_scan b rest with _ | ⟨r1, c1, d1⟩
      · -- no empty cell in the rest of the scan
        rcases hinv with ⟨rfl, rfl⟩ | ⟨p1, p2, d, rfl, rfl, hd2⟩
        · rw [ltInf_none, if_pos rfl]
          by_cases hone : (get_valid_candidates b r0 c0).length = 1
          · rw [if_pos hone]; rfl
          · rw [if_neg hone]
            rw [ih _ _ (Or.inr ⟨r0, c0, _, rfl, rfl, by omega⟩) hneRest, hts]
            rfl
        · rw [ltInf_some]
          by_cases hxd : (get_valid_candidates b r0 c0).length < d.length
          · rw [if_pos (decide_eq_true hxd)]
            by_cases hone : (get_valid_candidates b r0 c0).length = 1
            · rw [if_pos hone]
              simp only [mergeB, if_pos hxd]
            · rw [if_neg hone]
              rw [ih _ _ (Or.inr ⟨r0, c0, _, rfl, rfl, by omega⟩) hneRest, hts]
              simp only [mergeB, if_pos hxd]
          · rw [if_neg (by simpa using hxd)]
            rw [ih _ _ (Or.inr ⟨p1, p2, d, rfl, rfl, hd2⟩) hneRest, hts]
            simp only [mergeB, if_neg hxd]
      · -- the rest of the scan has a best cell (r1, c1) with domain d1
        obtain ⟨hm1, he1, hd1⟩ := mrv_spec_scan_valid b rest r1 c1 d1 hts
        have hd1ne : d1 ≠ [] := by rw [hd1]; exact hneRest _ hm1 he1
        have hd11 : 1 ≤ d1.length := List.length_pos.2 hd1ne
        rcases hinv with ⟨rfl, rfl⟩ | ⟨p1, p2, d, rfl, rfl, hd2⟩
        · rw [ltInf_none, if_pos rfl]
          by_cases hone : (get_valid_candidates b r0 c0).length = 1
          · rw [if_pos hone]
            have : ¬d1.length < (get_valid_candidates b r0 c0).length := by omega
            simp only [mergeB, if_neg this]
          · rw [if_neg hone]
            rw [ih _ _ (Or.inr ⟨r0, c0, _, rfl, rfl, by omega⟩) hneRest, hts]
            by_cases hdl : d1.length < (get_valid_candidates b r0 c0).length
            · simp only [mergeB, if_pos hdl]
            · simp only [mergeB, if_neg hdl]
        · rw [ltInf_some]
          by_cases hxd : (get_valid_candidates b r0 c0).length < d.length
          · rw [if_pos (decide_eq_true hxd)]
            by_cases hone : (get_valid_candidates b r0 c0).length = 1
            · rw [if_pos hone]
              have hndl : ¬d1.length < (get_valid_candidates b r0 c0).length := by
                omega
              simp only [mergeB, if_neg hndl, if_pos hxd]
            · rw [if_neg hone]
              rw [ih _ _ (Or.inr ⟨r0, c0, _, rfl, rfl, by omega⟩) hneRest, hts]
              by_cases hdl : d1.length < (get_valid_candidates b r0 c0).length
              · have : d1.length < d.length := by omega
                simp only [mergeB, if_pos hdl, if_pos this]
              · simp only [mergeB, if_neg hdl, if_pos hxd]
          · rw [if_neg (by simpa using hxd)]
            rw [ih _ _ (Or.inr ⟨p1, p2, d, rfl, rfl, hd2⟩) hneRest, hts]
            by_cases hdl : d1.length < (get_valid_candidates b r0 c0).length
            · simp only [mergeB, if_pos hdl]
            · have h1 : ¬(get_valid_candidates b r0 c0).length < d.length := hxd
              have h2 : ¬d1.length < d.length := by omega
              simp only [mergeB, if_neg hdl, if_neg h1, if_neg h2]
    · rw [if_neg hemp, if_neg hemp]
      exact ih best s hinv hneRest

/-- Under the no-dead-end hypothesis the MRV scan returns exactly the
first row-major empty cell of minimal candidate-set size. -/
lemma find_mrv_cell_eq_spec (b : Board)
    (hne : ∀ p ∈ allPositions, b p.1 p.2 = EMPTY_CELL →
      get_valid_candidates b p.1 p.2 ≠ []) :
    find_mrv_cell b = mrv_spec b := by
  rw [find_mrv_cell, mrv_spec,
    mrv_loop_eq_spec b allPositions none none (Or.inl ⟨rfl, rfl⟩) hne]
  cases mrv_spec_scan b allPositions <;> rfl

/-! ### Solutions and solvability (spec-side notions) -/

/-- `S` completes `b`: it agrees with every filled cell of `b`. -/
abbrev Completes (b S : Board) : Prop :=
  ∀ r c : Fin 16, b r c ≠ EMPTY_CELL → S r c = b r c

/-- The cell at offset `d` of the 4x4 band with block index `R`. -/
def blockPos (R : Fin 4) (d : Fin 4) : Fin 16 :=
  ⟨R.val * 4 + d.val, by have h1 := R.isLt; have h2 := d.isLt; omega⟩

/-- Modelled from the spec: a complete valid grid — every cell holds a
symbol, and every row, every column and every 4x4 subgrid contains each of
the 16 symbols exactly once. -/
abbrev ValidComplete (S : Board) : Prop :=
  (∀ r c : Fin 16, S r c ∈ SYMBOLS) ∧
  (∀ r : Fin 16, ∀ s ∈ SYMBOLS,
    ∃ c : Fin 16, S r c = s ∧ ∀ c' : Fin 16, S r c' = s → c' = c) ∧
  (∀ c : Fin 16, ∀ s ∈ SYMBOLS,
    ∃ r : Fin 16, S r c = s ∧ ∀ r' : Fin 16, S r' c = s → r' = r) ∧
  (∀ R C : Fin 4, ∀ s ∈ SYMBOLS,
    ∃ p : Fin 4 × Fin 4, S (blockPos R p.1) (blockPos C p.2) = s ∧
      ∀ q : Fin 4 × Fin 4, S (blockPos R q.1) (blockPos C q.2) = s → q = p)

/-- Modelled from the spec: a board is solvable when some complete valid
grid extends its filled cells. -/
def Solvable (b : Board) : Prop :=
  ∃ S : Board, Completes b S ∧ ValidComplete S

/-- A board with an empty cell whose candidate set is empty has no
solution: any completion would have to repeat a symbol in that cell's row,
column, or subgrid. -/
lemma not_solvable_of_dead_cell (b : Board) (r c : Fin 16)
    (hemp : b r c = EMPTY_CELL) (hdead : get_valid_candidates b r c = []) :
    ¬ Solvable b := by
  rintro ⟨S, hcomp, hsym, hrow, hcol, hblk⟩
  have hv : S r c ∈ SYMBOLS := hsym r c
  have hvne : S r c ≠ EMPTY_CELL := symbols_ne_empty _ hv
  have hused : S r c ∈ usedSymbols b r c := by
    by_contra hnu
    have hmem : S r c ∈ get_valid_candidates b r c :=
      (mem_candidates_iff b r c (S r c)).2 ⟨hv, hnu⟩
    rw [hdead] at hmem
    exact absurd hmem (List.not_mem_nil _)
  rcases (mem_usedSymbols_iff b r c (S r c)).1 hused with
    ⟨c', hc'⟩ | ⟨r', hr'⟩ | ⟨dr, dc, hsub⟩
  · have hfilled : b r c' ≠ EMPTY_CELL := by rw [hc']; exact hvne
    have hSrc' : S r c' = S r c := by rw [hcomp r c' hfilled, hc']
    have hcc : c' ≠ c := by
      rintro rfl
      exact hvne (hc'.symm.trans hemp)
    obtain ⟨c0, -, huniq⟩ := hrow r (S r c) hv
    exact hcc ((huniq c' hSrc').trans (huniq c rfl).symm)
  · have hfilled : b r' c ≠ EMPTY_CELL := by rw [hr']; exact hvne
    have hSr'c : S r' c = S r c := by rw [hcomp r' c hfilled, hr']
    have hrr : r' ≠ r := by
      rintro rfl
      exact hvne (hr'.symm.trans hemp)
    obtain ⟨r0, -, huniq⟩ := hcol c (S r c) hv
    exact hrr ((huniq r' hSr'c).trans (huniq r rfl).symm)
  · have hfilled : b (subgridPos r dr) (subgridPos c dc) ≠ EMPTY_CELL := by
      rw [hsub]; exact hvne
    have hSsub : S (subgridPos r dr) (subgridPos c dc) = S r c := by
      rw [hcomp _ _ hfilled, hsub]
    have hRlt : r.val / 4 < 4 := by have := r.isLt; omega
    have hClt : c.val / 4 < 4 := by have := c.isLt; omega
    have hrm : r.val % 4 < 4 := by omega
    have hcm : c.val % 4 < 4 := by omega
    have hbr : blockPos ⟨r.val / 4, hRlt⟩ dr = subgridPos r dr := rfl
    have hbc : blockPos ⟨c.val / 4, hClt⟩ dc = subgridPos c dc := rfl
    have hbrr : blockPos ⟨r.val / 4, hRlt⟩ ⟨r.val % 4, hrm⟩ = r := by
      apply Fin.ext
      show r.val / 4 * 4 + r.val % 4 = r.val
      omega
    have hbcc : blockPos ⟨c.val / 4, hClt⟩ ⟨c.val % 4, hcm⟩ = c := by
      apply Fin.ext
      show c.val / 4 * 4 + c.val % 4 = c.val
      omega
    obtain ⟨p0, -, huniq⟩ := hblk ⟨r.val / 4, hRlt⟩ ⟨c.val / 4, hClt⟩ (S r c) hv
    have e1 : (dr, dc) = p0 :=
      huniq (dr, dc)
        (show S (blockPos ⟨r.val / 4, hRlt⟩ dr) (blockPos ⟨c.val / 4, hClt⟩ dc) =
            S r c by rw [hbr, hbc]; exact hSsub)
    have e2 : ((⟨r.val % 4, hrm⟩ : Fin 4), (⟨c.val % 4, hcm⟩ : Fin 4)) = p0 :=
      huniq _
        (show S (blockPos ⟨r.val / 4, hRlt⟩ ⟨r.val % 4, hrm⟩)
            (blockPos ⟨c.val / 4, hClt⟩ ⟨c.val % 4, hcm⟩) = S r c by
          rw [hbrr, hbcc])
    have e3 := e1.trans e2.symm
    simp only [Prod.mk.injEq] at e3
    obtain ⟨e4, e5⟩ := e3
    apply hvne
    rw [← hsub, ← hemp]
    have hr2 : subgridPos r dr = r := by rw [← hbr, e4, hbrr]
    have hc2 : subgridPos c dc = c := by rw [← hbc, e5, hbcc]
    rw [hr2, hc2]

/-! ### The claims -/

/-- C1: the spec says that when the MRV scan finds an empty cell with an
empty candidate set, the invocation reports failure ("no solution from this
state") without attempting any assignment.  The code does not: the
forward-checking branch of `find_mrv_cell` returns the same `None` that
signals a completed board, which `solve_sudoku` turns into `True`.  On
`deadBoard` — a consistent board whose cell `(0,0)` is empty and has zero
candidates — the solver reports success immediately (no assignment is
attempted, but the report is success, not failure). -/
theorem claim_C1_dead_end_reports_success :
    deadBoard 0 0 = EMPTY_CELL ∧
    get_valid_candidates deadBoard 0 0 = [] ∧
    solve_sudoku deadBoard = (true, deadBoard) :=
  ⟨by decide, by decide, rfl⟩

/-- C2: the spec says that whenever `solve_sudoku` returns `true` the board
is completely filled with symbols and satisfies the uniqueness constraints.
The code violates this: on `deadBoard` it returns `true` while cell `(0,0)`
still holds the empty marker (which is not one of the 16 symbols). -/
theorem claim_C2_true_with_empty_cell :
    (solve_sudoku deadBoard).1 = true ∧
    (solve_sudoku deadBoard).2 0 0 = EMPTY_CELL ∧
    (solve_sudoku deadBoard).2 0 0 ∉ SYMBOLS :=
  ⟨by decide, by decide, by decide⟩

/-- C3: the spec says that on a solvable board the solver returns `true`
with no empty cell remaining.  `bugBoard` is solvable (the complete valid
grid `Lgrid` extends it), yet the solver guesses the wrong symbol at
`(12,1)`, runs into a dead end, mistakes the dead end for success, and
returns `true` with cell `(14,1)` (among others) still empty. -/
theorem claim_C3_solvable_board_left_incomplete :
    Solvable bugBoard ∧
    (solve_sudoku bugBoard).1 = true ∧
    (solve_sudoku bugBoard).2 14 1 = EMPTY_CELL :=
  ⟨⟨Lgrid, by decide, by decide⟩, by decide, by decide⟩

/-- C4: the spec's non-corruption contract is that an unsolvable board
makes `solve_sudoku` return `false` with the board restored.  The code
never returns `false` on any board: every search path bottoms out in
`find_mrv_cell` returning `None` (complete board or dead end alike), which
is reported as `true`.  In particular the unsolvable `deadBoard` is
reported as solved, so the restored-on-failure contract can never be
exercised. -/
theorem claim_C4_solver_never_reports_failure :
    ¬ Solvable deadBoard ∧
    (solve_sudoku deadBoard).1 = true ∧
    (∀ b : Board, (solve_sudoku b).1 = true) := by
  refine ⟨not_solvable_of_dead_cell deadBoard 0 0 (by decide) (by decide),
    by decide, fun b => ?_⟩
  obtain ⟨b2, -, h2⟩ := solve_sudoku_eq_true b
  rw [h2]

/-- C5: `get_valid_candidates` returns exactly the 16-symbol alphabet minus
the union of the values in the cell's row, the values in its column, and
the values in the 4x4 block with origin `(row / 4 * 4, col / 4 * 4)`; the
empty-cell marker is never a member of the result. -/
theorem claim_C5_candidates_characterization (b : Board) (row col : Fin 16) :
    (∀ s : String, s ∈ get_valid_candidates b row col ↔
      (s ∈ SYMBOLS ∧ (∀ c' : Fin 16, b row c' ≠ s) ∧
        (∀ r' : Fin 16, b r' col ≠ s) ∧
        (∀ dr dc : Fin 4, b (subgridPos row dr) (subgridPos col dc) ≠ s))) ∧
    EMPTY_CELL ∉ get_valid_candidates b row col := by
  constructor
  · intro s
    rw [mem_candidates_iff, mem_usedSymbols_iff]
    simp only [not_or, not_exists]
  · intro h
    exact absurd (mem_symbols_of_mem_candidates h) (by decide)

/-- C6: as long as no empty cell has an empty candidate set, the MRV scan
visits the cells in row-major order and selects the first empty cell whose
candidate set has the minimal size (strict `<` comparison, so the first
cell of each size wins ties, and a cell with exactly one candidate stops
the scan at once — which is also the first minimal cell). -/
theorem claim_C6_mrv_selects_first_minimum (b : Board)
    (hne : ∀ p ∈ allPositions, b p.1 p.2 = EMPTY_CELL →
      get_valid_candidates b p.1 p.2 ≠ []) :
    find_mrv_cell b = mrv_spec b :=
  find_mrv_cell_eq_spec b hne

/-- Witness for C6 at the concrete solvable board `bugBoard` (eight empty
cells, none with an empty candidate set). -/
theorem claim_C6_witness : find_mrv_cell bugBoard = mrv_spec bugBoard :=
  claim_C6_mrv_selects_first_minimum bugBoard (by decide)

/-- C7: the candidate list handed to the branching loop is in ascending
alphabet order (Python compares the one-character symbol strings
lexicographically, digits before letters); a successful recursive call is
propagated at once — the remaining candidates are not tried and the
assignment is not undone; a failed recursive call resets the cell to the
empty marker before the next candidate is tried. -/
theorem claim_C7_candidate_order_and_backtracking
    (solver : Board → Option (Bool × Board)) (b b2 : Board)
    (row col : Fin 16) (sym : String) (rest : List String) :
    List.Pairwise (fun s1 s2 : String => s1.data < s2.data)
      (get_valid_candidates b row col) ∧
    (solver (setCell b row col sym) = some (true, b2) →
      try_symbols solver row col (sym :: rest) b = some (true, b2)) ∧
    (solver (setCell b row col sym) = some (false, b2) →
      try_symbols solver row col (sym :: rest) b =
        try_symbols solver row col rest (setCell b2 row col EMPTY_CELL)) := by
  refine ⟨?_, fun h => try_symbols_cons_of_true rest h,
    fun h => try_symbols_cons_of_false rest h⟩
  have hs : List.Pairwise (fun s1 s2 : String => s1.data < s2.data) SYMBOLS := by
    decide
  exact List.Pairwise.sublist (List.filter_sublist _) hs

/-- A solver that always reports success with the board it was given. -/
def constSuccess : Board → Option (Bool × Board) := fun bd => some (true, bd)

/-- A solver that always reports failure with the board it was given. -/
def constFailure : Board → Option (Bool × Board) := fun bd => some (false, bd)

/-- Witness for C7: both branching behaviours at a concrete cell of a
concrete board. -/
theorem claim_C7_witness :
    (try_symbols constSuccess 3 5 ["B"] oneBlank35 =
      some (true, setCell oneBlank35 3 5 "B")) ∧
    (try_symbols constFailure 3 5 ["B", "C"] oneBlank35 =
      try_symbols constFailure 3 5 ["C"]
        (setCell (setCell oneBlank35 3 5 "B") 3 5 EMPTY_CELL)) :=
  ⟨(claim_C7_candidate_order_and_backtracking constSuccess oneBlank35
      (setCell oneBlank35 3 5 "B") 3 5 "B" []).2.1 rfl,
    (claim_C7_candidate_order_and_backtracking constFailure oneBlank35
      (setCell oneBlank35 3 5 "B") 3 5 "B" ["C"]).2.2 rfl⟩

/-- C8: the solver terminates on every board: the fuel `numEmpty b + 1`
(recursion depth bounded by the number of empty cells) always suffices, and
`solve_sudoku` is the terminating computation's result. -/
theorem claim_C8_terminates (b : Board) :
    ∃ res : Bool × Board,
      solve_fuel (numEmpty b + 1) b = some res ∧ solve_sudoku b = res :=
  let ⟨b2, h1, h2⟩ := solve_sudoku_eq_true b
  ⟨(true, b2), h1, h2⟩

/-- C9: the solver never modifies a cell that was non-empty at the time of
the call: every assignment targets a cell selected by `find_mrv_cell`,
which is empty, so every pre-filled cell keeps its value in the returned
board. -/
theorem claim_C9_prefilled_cells_preserved (b : Board) (r c : Fin 16)
    (h : b r c ≠ EMPTY_CELL) :
    (solve_sudoku b).2 r c = b r c := by
  obtain ⟨b2, h1, h2⟩ := solve_sudoku_eq_true b
  rw [h2]
  exact solve_fuel_frame (numEmpty b + 1) b (true, b2) h1 r c h

/-- Witness for C9 at a concrete board whose cell `(0,0)` is pre-filled
with `"A"`. -/
theorem claim_C9_witness :
    oneBlank88 0 0 = "A" ∧ (solve_sudoku oneBlank88).2 0 0 = oneBlank88 0 0 :=
  ⟨by decide, claim_C9_prefilled_cells_preserved oneBlank88 0 0 (by decide)⟩

/-- C10: whenever `find_mrv_cell` returns `(row, col, candidates)` rather
than `None`, the coordinates are in range, the cell at `(row, col)` is
currently empty, and `candidates` is a nonempty subset of the alphabet
equal to `get_valid_candidates` of that cell on the current board. -/
theorem claim_C10_mrv_result_invariants (b : Board) (r c : Fin 16)
    (cands : List String) (h : find_mrv_cell b = some (r, c, cands)) :
    r.val < 16 ∧ c.val < 16 ∧ b r c = EMPTY_CELL ∧ cands ≠ [] ∧
      (∀ s ∈ cands, s ∈ SYMBOLS) ∧ cands = get_valid_candidates b r c := by
  obtain ⟨hemp, hc, hne⟩ := find_mrv_cell_valid b r c cands h
  exact ⟨r.isLt, c.isLt, hemp, hne,
    fun s hs => mem_symbols_of_mem_candidates (hc ▸ hs), hc⟩

/-- Witness for C10 at a concrete board where the scan selects `(2,3)` with
the single candidate `"5"`. -/
theorem claim_C10_witness :
    oneBlank23 2 3 = EMPTY_CELL ∧ (["5"] : List String) ≠ [] ∧
      (["5"] : List String) = get_valid_candidates oneBlank23 2 3 := by
  have h := claim_C10_mrv_result_invariants oneBlank23 2 3 ["5"] (by decide)
  exact ⟨h.2.2.1, h.2.2.2.1, h.2.2.2.2.2⟩

end SudokuMRV
